import Mathlib

/-!
# Verification of the TransformerEngine `te_llama` weight-remapping example

Shallow embedding of `docs/examples/te_llama/te_llama.py`:

* a PyTorch `state_dict` is modelled as an association list from fully
  qualified parameter names (`String`) to tensors;
* a tensor is modelled as its list of rows along axis 0 (`List (List Int)`),
  so `torch.cat(_, dim=0)` is list append;
* the in-place copy `te_state_dict[k].data[:] = v` is modelled as replacing
  the value stored under the (already existing) key `k`;
* a Python `KeyError` raised by `hf_state_dict[k]` on a missing key is
  modelled by carrying the state mutated so far together with an
  `Option String` holding the first missing key (exceptions abort the rest
  of the run, but in-place mutations performed before the raise persist);
* `re.match` over the pattern `model.layers.\d+.` is modelled faithfully,
  including the fact that the unescaped `.` matches any character except a
  newline and that the greedy `\d+` backtracks by one digit when the final
  `.` has nothing left to match.  `\d` is modelled as an ASCII digit.
-/

/-- A tensor, viewed as its list of rows along axis 0.  Row contents are
integers; `torch.cat((a, b), dim=0)` is then list append. -/
abbrev Tensor := List (List Int)

/-- Model of `torch.cat((a, b), dim=0)`: stack the rows of `a` before the rows of
`b`. -/
def catRows (a b : Tensor) : Tensor := a ++ b

/-- A `state_dict`: an association list from parameter name to tensor,
in insertion order (Python dicts iterate in insertion order and have no
duplicate keys). -/
abbrev StateDict := List (String × Tensor)

/-- The list of keys of a state dict, in order (`d.keys()`). -/
def keysOf (sd : StateDict) : List String := sd.map Prod.fst

/-- Dictionary lookup `d[k]`, returning `none` where Python raises
`KeyError`. -/
def lookup : StateDict → String → Option Tensor
  | [], _ => none
  | e :: es, k => if e.1 = k then some e.2 else lookup es k

/-- The in-place overwrite `d[k].data[:] = v`: every entry whose key is `k`
has its stored value replaced by `v`; no entry is ever created. -/
def setParam (sd : StateDict) (k : String) (v : Tensor) : StateDict :=
  sd.map (fun e => if e.1 = k then (e.1, v) else e)

/-- Python `re`: `.` (no DOTALL) matches any character except a newline. -/
def dotChar (c : Char) : Bool := c ≠ '\n'

/-- Split a character list into its longest leading run of ASCII digits and
the remainder (the greedy `\d+`, before any backtracking). -/
def takeDigits : List Char → List Char × List Char
  | [] => ([], [])
  | c :: cs =>
    if c.isDigit then
      let p := takeDigits cs
      (c :: p.1, p.2)
    else ([], c :: cs)

/-- Model of `re.match('model.layers.\d+.', key)` on the characters of `key`,
returning the matched text `m.group()`.  The pattern's dots are unescaped,
so they match any character except a newline; `\d+` is greedy but gives one
digit back to the final `.` when the digits reach the end of the string (or
a newline), which is possible only when there are at least two digits. -/
def matchChars : List Char → Option (List Char)
  | m :: o :: d :: e :: l :: c1 :: l2 :: a :: y :: e2 :: r :: s :: c2 :: rest =>
    if m = 'm' ∧ o = 'o' ∧ d = 'd' ∧ e = 'e' ∧ l = 'l' ∧ dotChar c1 = true ∧
        l2 = 'l' ∧ a = 'a' ∧ y = 'y' ∧ e2 = 'e' ∧ r = 'r' ∧ s = 's' ∧
        dotChar c2 = true then
      match takeDigits rest with
      | ([], _) => none
      | (ds, c3 :: _) =>
        if dotChar c3 = true then
          some ([m, o, d, e, l, c1, l2, a, y, e2, r, s, c2] ++ ds ++ [c3])
        else if 2 ≤ ds.length then
          some ([m, o, d, e, l, c1, l2, a, y, e2, r, s, c2] ++ ds)
        else none
      | (ds, []) =>
        if 2 ≤ ds.length then
          some ([m, o, d, e, l, c1, l2, a, y, e2, r, s, c2] ++ ds)
        else none
    else none
  | _ => none

/-- The match `m = re.match('model.layers.\d+.', param_key)`, yielding `m.group()`
when the match succeeds. -/
def layerPrefixMatch (key : String) : Option String :=
  (matchChars key.data).map (fun l => ⟨l⟩)

/-- The loop `for param_key in hf_state_dict.keys(): ... all_layer_prefixes.add(m.group())`,
with the Python set modelled as a duplicate-free list in insertion order. -/
def collectGo : List String → List String → List String
  | [], acc => acc
  | k :: ks, acc =>
    match layerPrefixMatch k with
    | some p => collectGo ks (if p ∈ acc then acc else acc ++ [p])
    | none => collectGo ks acc

/-- The set `all_layer_prefixes`: the set of distinct matched layer prefixes found
among the source keys. -/
def collectPrefixes (ks : List String) : List String := collectGo ks []

/-- The right-hand side of one correspondence rule: either a single source
tensor or the axis-0 concatenation of two source tensors. -/
inductive RuleSrc where
  | single (s : String)
  | cat (s1 s2 : String)
deriving DecidableEq, Repr

/-- One correspondence rule: the target key suffix (under the layer prefix)
and the source it is assigned from. -/
structure Rule where
  tgt : String
  src : RuleSrc
deriving DecidableEq, Repr

/-- The eight conditional assignments in `replace_params`, in source
order. -/
def correspondenceTable : List Rule :=
  [⟨"self_attention.layernorm_qkv.layer_norm_weight", .single "input_layernorm.weight"⟩,
   ⟨"self_attention.layernorm_qkv.query_weight", .single "self_attn.q_proj.weight"⟩,
   ⟨"self_attention.layernorm_qkv.key_weight", .single "self_attn.k_proj.weight"⟩,
   ⟨"self_attention.layernorm_qkv.value_weight", .single "self_attn.v_proj.weight"⟩,
   ⟨"self_attention.proj.weight", .single "self_attn.o_proj.weight"⟩,
   ⟨"layernorm_mlp.layer_norm_weight", .single "post_attention_layernorm.weight"⟩,
   ⟨"layernorm_mlp.fc1_weight", .cat "mlp.gate_proj.weight" "mlp.up_proj.weight"⟩,
   ⟨"layernorm_mlp.fc2_weight", .single "mlp.down_proj.weight"⟩]

/-- The value a rule assigns, reading from the source dict: `none` exactly
when one of the required source keys is absent (a Python `KeyError`). -/
def ruleVal (hf : StateDict) (p : String) (r : Rule) : Option Tensor :=
  match r.src with
  | .single s => lookup hf (p ++ s)
  | .cat s1 s2 =>
    match lookup hf (p ++ s1), lookup hf (p ++ s2) with
    | some v1, some v2 => some (catRows v1 v2)
    | _, _ => none

/-- The first source key whose dictionary access raises, in evaluation
order (for a concatenation, `torch.cat((hf[s1], hf[s2]))` evaluates `s1`
first). -/
def missingSrcKey (hf : StateDict) (p : String) (r : Rule) : String :=
  match r.src with
  | .single s => p ++ s
  | .cat s1 s2 => if lookup hf (p ++ s1) = none then p ++ s1 else p ++ s2

/-- One `if layer_prefix + tgt in te_state_dict: te_state_dict[...] = ...`
block: applied only when the target key exists; a missing source key under
an applicable rule raises (second component `some missing-key`). -/
def applyRule (hf te : StateDict) (p : String) (r : Rule) :
    StateDict × Option String :=
  if (p ++ r.tgt) ∈ keysOf te then
    match ruleVal hf p r with
    | some v => (setParam te (p ++ r.tgt) v, none)
    | none => (te, some (missingSrcKey hf p r))
  else (te, none)

/-- Run the rules of one layer in order; a raise aborts the remaining rules
but keeps the writes already performed. -/
def applyRules (hf : StateDict) (p : String) :
    List Rule → StateDict → StateDict × Option String
  | [], te => (te, none)
  | r :: rs, te =>
    match applyRule hf te p r with
    | (te1, none) => applyRules hf p rs te1
    | (te1, some e) => (te1, some e)

/-- The `for layer_prefix in all_layer_prefixes` loop. -/
def runLayers (hf : StateDict) :
    List String → StateDict → StateDict × Option String
  | [], te => (te, none)
  | p :: ps, te =>
    match applyRules hf p correspondenceTable te with
    | (te1, none) => runLayers hf ps te1
    | (te1, some e) => (te1, some e)

/-- Outcome of one `replace_params(hf_state_dict, te_state_dict)` call:
the target dict after the call (mutations persist even past a raise), the
collected layer prefixes (the return value on normal exit), and the first
missing source key if a `KeyError` was raised. -/
structure RunResult where
  te : StateDict
  prefixList : List String
  err : Option String
deriving DecidableEq, Repr

/-- The function `replace_params(hf_state_dict, te_state_dict)` from
`docs/examples/te_llama/te_llama.py`. -/
def replace_params (hf te : StateDict) : RunResult :=
  let ps := collectPrefixes (keysOf hf)
  let r := runLayers hf ps te
  ⟨r.1, ps, r.2⟩

/-! ## The write-list view of a run

A successful run of the remapping loop performs a sequence of in-place
writes, each at a key that already exists in the target dict.  We
characterise the final target state by that write list. -/

/-- The value stored by the last write to `k` in `W`, if any. -/
def lastVal : List (String × Tensor) → String → Option Tensor
  | [], _ => none
  | w :: ws, k =>
    match lastVal ws k with
    | some v => some v
    | none => if w.1 = k then some w.2 else none

/-- Apply a list of in-place writes in order. -/
def applyWrites (te : StateDict) (W : List (String × Tensor)) : StateDict :=
  W.foldl (fun sd w => setParam sd w.1 w.2) te

/-- The single write performed by one rule at prefix `p`, given the set of
target keys `tks` (stable over the whole run): `none` when the rule is
skipped because its target key is absent, or when it would raise. -/
def ruleWrite (hf : StateDict) (tks : List String) (p : String) (r : Rule) :
    Option (String × Tensor) :=
  if (p ++ r.tgt) ∈ tks then
    (ruleVal hf p r).map (fun v => (p ++ r.tgt, v))
  else none

/-- The writes performed for one layer prefix, in rule order. -/
def rulesWrites (hf : StateDict) (tks : List String) (p : String)
    (rs : List Rule) : List (String × Tensor) :=
  rs.filterMap (ruleWrite hf tks p)

/-- The writes performed by a whole run, in layer order. -/
def allWrites (hf : StateDict) (tks : List String) (ps : List String) :
    List (String × Tensor) :=
  (ps.map (fun p => rulesWrites hf tks p correspondenceTable)).flatten

/-! ## Canonical layer keys

The claims quantify over source sets that contain, for each layer, all the
source keys the correspondence table reads.  Such a set is built here from
a list of layer indices (arbitrary nonempty digit strings, so `007` is
allowed) and a tensor-valued function. -/

/-- A nonempty string of ASCII digits (what `\d+` can match). -/
def isDigitString (s : String) : Bool := !s.data.isEmpty && s.data.all Char.isDigit

/-- The layer prefix `model.layers.<digits>.` for index string `d`. -/
def layerPrefixStr (d : String) : String := "model.layers." ++ d ++ "."

/-- The nine source-key suffixes read by the eight correspondence rules
(the `fc1_weight` rule reads two). -/
def hfSrcSuffixes : List String :=
  ["input_layernorm.weight", "self_attn.q_proj.weight", "self_attn.k_proj.weight",
   "self_attn.v_proj.weight", "self_attn.o_proj.weight",
   "post_attention_layernorm.weight", "mlp.gate_proj.weight",
   "mlp.up_proj.weight", "mlp.down_proj.weight"]

/-- All expected source entries of one layer, with tensors given by `f`. -/
def mkLayer (f : String → String → Tensor) (d : String) : StateDict :=
  hfSrcSuffixes.map (fun s => (layerPrefixStr d ++ s, f d s))

/-- A full source set for the layers `idxs`: all expected source keys for
each of its layer prefixes. -/
def mkSource (idxs : List String) (f : String → String → Tensor) : StateDict :=
  (idxs.map (mkLayer f)).flatten

/-- The tensor the correspondence table specifies for one target key, in
terms of the source tensors of a well-formed source set. -/
def expectedVal (f : String → String → Tensor) (d : String) (r : Rule) : Tensor :=
  match r.src with
  | .single s => f d s
  | .cat s1 s2 => catRows (f d s1) (f d s2)

/-- Tensors that make the source entries of a layer pairwise distinguishable:
each suffix is mapped to the one-row tensor holding its length. -/
def fLen : String → String → Tensor := fun _ s => [[(s.length : Int)]]

/-- A target set holding all eight target keys of layer `0`. -/
def teAll0 : StateDict :=
  correspondenceTable.map (fun r => ("model.layers.0." ++ r.tgt, [[0]]))

/-! ## Shard-by-shard processing -/

/-- The shard loop of `from_pretrained_local`: for each resolved shard in
order, load its state dict and remap it into the target with
`replace_params`; a raised `KeyError` propagates and aborts the loop. -/
def runShards : List StateDict → StateDict → StateDict × Option String
  | [], te => (te, none)
  | hf :: rest, te =>
    match replace_params hf te with
    | ⟨te1, _, none⟩ => runShards rest te1
    | ⟨te1, _, some e⟩ => (te1, some e)

/-! ## The decoder-class substitution and the checkpoint-format gate -/

/-- A stateful computation over the global decoder-layer class slot that can
raise: from the current slot value it produces the slot value it leaves
behind and either a result or a raised error. -/
def StM (σ ε α : Type) : Type := σ → σ × Except ε α

/-- The values the global slot
`transformers.models.llama.modeling_llama.LlamaDecoderLayer` can hold. -/
inductive DecoderCls where
  | llamaDecoderLayer
  | teLlamaDecoderLayer
deriving DecidableEq, Repr

/-- The `replace_decoder` context manager: remember the original class, set
the slot to `te_decodder_cls`, run the body on that state, and in the
`finally` block restore the original class — whether the body returned or
raised. -/
def replace_decoder {ε α : Type} (te_decodder_cls : DecoderCls)
    (body : StM DecoderCls ε α) : StM DecoderCls ε α :=
  fun slot =>
    let original_llama_decoder_cls := slot
    let r := body te_decodder_cls
    (original_llama_decoder_cls, r.2)

/-- The constructor `TELlamaForCausalLM.__new__(cls, config)`: run the external
`LlamaForCausalLM(config)` constructor (abstracted as `construct`, which
reads the slot and may raise) inside `replace_decoder` with
`TELlamaDecoderLayer`. -/
def TELlamaForCausalLM_new {ε α : Type} (construct : StM DecoderCls ε α) :
    StM DecoderCls ε α :=
  replace_decoder DecoderCls.teLlamaDecoderLayer construct

/-- An on-disk checkpoint directory as `from_pretrained_local` observes it:
whether the sharded-checkpoint index file (`WEIGHTS_INDEX_NAME`) exists in
it, and the shard state dicts that resolving the index yields.  Index
resolution and `load_state_dict` are the external checkpoint loader; the
pass copying non-decoder-layer parameters is the external model-loading
mechanism and out of scope. -/
structure Checkpoint where
  hasWeightsIndex : Bool
  shards : List StateDict

/-- The checkpoint-format gate and shard loop of
`TELlamaForCausalLM.from_pretrained_local`: when the index file is absent
the call raises `AssertionError` with the unsupported-format message before
resolving or loading any shard; otherwise the resolved shards are loaded in
order and remapped into the target with `replace_params`. -/
def from_pretrained_local (ck : Checkpoint) (te : StateDict) :
    Except String (StateDict × Option String) :=
  if ck.hasWeightsIndex then .ok (runShards ck.shards te)
  else .error "Only sharded PyTorch ckpt format supported at the moment"

example :
    replace_params [("model.layers.0.input_layernorm.weight", [[3]])]
      [("model.layers.0.self_attention.layernorm_qkv.layer_norm_weight", [[0]])] =
    ⟨[("model.layers.0.self_attention.layernorm_qkv.layer_norm_weight", [[3]])],
      ["model.layers.0."], none⟩ := by decide

example : layerPrefixMatch "model.embed_tokens.weight" = none := by decide

example : layerPrefixMatch "model.layers.12" = some "model.layers.12" := by decide

example : layerPrefixMatch "model.layers.1" = none := by decide

/-! ## Basic lemmas about dictionaries -/

lemma str_ext {s t : String} (h : s.data = t.data) : s = t := congrArg String.mk h

lemma str_append_cancel_left {s t u : String} (h : s ++ t = s ++ u) : t = u := by
  apply str_ext
  have hd : s.data ++ t.data = s.data ++ u.data := by
    simpa [String.data_append] using congrArg String.data h
  exact List.append_cancel_left hd

lemma keysOf_setParam (sd : StateDict) (k : String) (v : Tensor) :
    keysOf (setParam sd k v) = keysOf sd := by
  unfold keysOf setParam
  rw [List.map_map]
  apply List.map_congr_left
  intro e _
  by_cases h : e.1 = k <;> simp [h]

lemma keysOf_cons (e : String × Tensor) (es : StateDict) :
    keysOf (e :: es) = e.1 :: keysOf es := rfl

lemma lookup_isSome_iff_mem (sd : StateDict) (k : String) :
    (lookup sd k).isSome ↔ k ∈ keysOf sd := by
  induction sd with
  | nil => simp [lookup, keysOf]
  | cons e es ih =>
    by_cases h : e.1 = k
    · simp [lookup, keysOf_cons, h]
    · have hne : k ≠ e.1 := fun hk => h hk.symm
      simp [lookup, keysOf_cons, h, hne, ih]

lemma lookup_none_of_forall (sd : StateDict) (k : String)
    (h : ∀ e ∈ sd, e.1 ≠ k) : lookup sd k = none := by
  induction sd with
  | nil => rfl
  | cons e es ih =>
    have h1 : e.1 ≠ k := h e (by simp)
    simp only [lookup, if_neg h1]
    exact ih (fun e2 he2 => h e2 (by simp [he2]))

lemma lookup_append (A B : StateDict) (k : String) :
    lookup (A ++ B) k =
      match lookup A k with
      | some v => some v
      | none => lookup B k := by
  induction A with
  | nil => simp [lookup]
  | cons e es ih =>
    by_cases h : e.1 = k <;> simp [lookup, h, ih]

lemma applyWrites_cons (te : StateDict) (w : String × Tensor)
    (W : List (String × Tensor)) :
    applyWrites te (w :: W) = applyWrites (setParam te w.1 w.2) W := rfl

lemma applyWrites_append (te : StateDict) (W1 W2 : List (String × Tensor)) :
    applyWrites te (W1 ++ W2) = applyWrites (applyWrites te W1) W2 := by
  simp [applyWrites, List.foldl_append]

lemma keysOf_applyWrites (te : StateDict) (W : List (String × Tensor)) :
    keysOf (applyWrites te W) = keysOf te := by
  induction W generalizing te with
  | nil => rfl
  | cons w W ih => simp [applyWrites_cons, ih, keysOf_setParam]

lemma map_eta (l : StateDict) : l.map (fun e => (e.1, e.2)) = l := by
  induction l with
  | nil => rfl
  | cons e es ih => simp [ih]

lemma applyWrites_eq_map (te : StateDict) (W : List (String × Tensor)) :
    applyWrites te W = te.map (fun e => (e.1, (lastVal W e.1).getD e.2)) := by
  induction W generalizing te with
  | nil => exact (map_eta te).symm
  | cons w W ih =>
    rw [applyWrites_cons, ih, setParam, List.map_map]
    apply List.map_congr_left
    intro e _
    by_cases h : e.1 = w.1
    · cases hl : lastVal W w.1 <;> simp [Function.comp, h, lastVal, hl]
    · cases hl : lastVal W e.1 <;>
        simp [Function.comp, h, lastVal, hl, Ne.symm h]

lemma lookup_map_values (te : StateDict) (F : String → Tensor → Tensor)
    (k : String) :
    lookup (te.map (fun e => (e.1, F e.1 e.2))) k = (lookup te k).map (F k) := by
  induction te with
  | nil => rfl
  | cons e es ih =>
    by_cases h : e.1 = k <;> simp [lookup, h, ih]

lemma lookup_applyWrites (te : StateDict) (W : List (String × Tensor))
    (k : String) :
    lookup (applyWrites te W) k =
      (lookup te k).map (fun v => (lastVal W k).getD v) := by
  rw [applyWrites_eq_map]
  exact lookup_map_values te (fun k0 v => (lastVal W k0).getD v) k

lemma lastVal_append (W1 W2 : List (String × Tensor)) (k : String) :
    lastVal (W1 ++ W2) k =
      match lastVal W2 k with
      | some v => some v
      | none => lastVal W1 k := by
  induction W1 with
  | nil => cases h : lastVal W2 k <;> simp [lastVal, h]
  | cons w W ih => cases h : lastVal W2 k <;> simp [lastVal, ih, h]

lemma lastVal_none_of_forall (W : List (String × Tensor)) (k : String)
    (h : ∀ w ∈ W, w.1 ≠ k) : lastVal W k = none := by
  induction W with
  | nil => rfl
  | cons w W ih =>
    have h1 : w.1 ≠ k := h w (by simp)
    simp [lastVal, ih (fun w2 hw2 => h w2 (by simp [hw2])), h1]

lemma exists_of_lastVal_some {W : List (String × Tensor)} {k : String}
    {v : Tensor} (h : lastVal W k = some v) : ∃ w ∈ W, w.1 = k := by
  by_contra hc
  push_neg at hc
  rw [lastVal_none_of_forall W k hc] at h
  exact Option.noConfusion h

lemma lastVal_comm (W1 W2 : List (String × Tensor)) (k : String)
    (h : ∀ w1 ∈ W1, ∀ w2 ∈ W2, w1.1 ≠ w2.1) :
    lastVal (W1 ++ W2) k = lastVal (W2 ++ W1) k := by
  rw [lastVal_append, lastVal_append]
  cases h1 : lastVal W1 k with
  | none => cases h2 : lastVal W2 k <;> simp
  | some v1 =>
    cases h2 : lastVal W2 k with
    | none => simp
    | some v2 =>
      obtain ⟨w1, hw1, hk1⟩ := exists_of_lastVal_some h1
      obtain ⟨w2, hw2, hk2⟩ := exists_of_lastVal_some h2
      exact absurd (hk1.trans hk2.symm) (h w1 hw1 w2 hw2)

lemma mem_rulesWrites {hf : StateDict} {tks : List String} {p : String}
    {rs : List Rule} {w : String × Tensor}
    (h : w ∈ rulesWrites hf tks p rs) :
    ∃ r ∈ rs, w.1 = p ++ r.tgt ∧ ruleVal hf p r = some w.2 := by
  rw [rulesWrites, List.mem_filterMap] at h
  obtain ⟨r, hr, hw⟩ := h
  refine ⟨r, hr, ?_⟩
  unfold ruleWrite at hw
  by_cases hk : (p ++ r.tgt) ∈ tks
  · rw [if_pos hk] at hw
    cases hv : ruleVal hf p r with
    | none => rw [hv] at hw; exact absurd hw (by simp)
    | some v =>
      rw [hv] at hw
      simp only [Option.map_some'] at hw
      injection hw with hw1
      subst hw1
      exact ⟨rfl, rfl⟩
  · rw [if_neg hk] at hw
    exact absurd hw (by simp)

lemma keysOf_applyRules (hf : StateDict) (p : String) (rs : List Rule)
    (te : StateDict) :
    keysOf (applyRules hf p rs te).1 = keysOf te := by
  induction rs generalizing te with
  | nil => rfl
  | cons r rs ih =>
    by_cases h : (p ++ r.tgt) ∈ keysOf te
    · cases hv : ruleVal hf p r with
      | none => simp [applyRules, applyRule, h, hv]
      | some v => simp [applyRules, applyRule, h, hv, ih, keysOf_setParam]
    · simp [applyRules, applyRule, h, ih]

lemma applyRules_ok_char (hf : StateDict) (p : String) (rs : List Rule)
    (te : StateDict)
    (h : ∀ r ∈ rs, (p ++ r.tgt) ∈ keysOf te → (ruleVal hf p r).isSome) :
    applyRules hf p rs te =
      (applyWrites te (rulesWrites hf (keysOf te) p rs), none) := by
  induction rs generalizing te with
  | nil => rfl
  | cons r rs ih =>
    by_cases hk : (p ++ r.tgt) ∈ keysOf te
    · obtain ⟨v, hv⟩ := Option.isSome_iff_exists.mp (h r (by simp) hk)
      have hrw : ruleWrite hf (keysOf te) p r = some (p ++ r.tgt, v) := by
        simp [ruleWrite, hk, hv]
      have hkeys := keysOf_setParam te (p ++ r.tgt) v
      have hprem : ∀ r2 ∈ rs,
          (p ++ r2.tgt) ∈ keysOf (setParam te (p ++ r.tgt) v) →
          (ruleVal hf p r2).isSome := by
        intro r2 hr2 hk2
        exact h r2 (List.mem_cons_of_mem _ hr2) (by rwa [hkeys] at hk2)
      simp only [applyRules, applyRule, if_pos hk, hv]
      rw [ih _ hprem, hkeys]
      simp [rulesWrites, List.filterMap_cons, hrw, applyWrites_cons]
    · have hrw : ruleWrite hf (keysOf te) p r = none := by
        simp [ruleWrite, hk]
      have hprem : ∀ r2 ∈ rs, (p ++ r2.tgt) ∈ keysOf te →
          (ruleVal hf p r2).isSome :=
        fun r2 hr2 => h r2 (List.mem_cons_of_mem _ hr2)
      simp only [applyRules, applyRule, if_neg hk]
      rw [ih _ hprem]
      simp [rulesWrites, List.filterMap_cons, hrw]

lemma applyRules_ok_vals (hf : StateDict) (p : String) (rs : List Rule)
    (te : StateDict) (h : (applyRules hf p rs te).2 = none) :
    ∀ r ∈ rs, (p ++ r.tgt) ∈ keysOf te → (ruleVal hf p r).isSome := by
  induction rs generalizing te with
  | nil => simp
  | cons r rs ih =>
    intro r2 hr2 hk2
    by_cases hk : (p ++ r.tgt) ∈ keysOf te
    · cases hv : ruleVal hf p r with
      | none => simp [applyRules, applyRule, hk, hv] at h
      | some v =>
        rcases List.mem_cons.mp hr2 with rfl | hmem
        · simp [hv]
        · have h2 : (applyRules hf p rs (setParam te (p ++ r.tgt) v)).2 = none := by
            simpa [applyRules, applyRule, hk, hv] using h
          exact ih _ h2 r2 hmem (by rwa [keysOf_setParam])
    · rcases List.mem_cons.mp hr2 with rfl | hmem
      · exact absurd hk2 hk
      · have h2 : (applyRules hf p rs te).2 = none := by
          simpa [applyRules, applyRule, hk] using h
        exact ih _ h2 r2 hmem hk2

lemma keysOf_runLayers (hf : StateDict) (ps : List String) (te : StateDict) :
    keysOf (runLayers hf ps te).1 = keysOf te := by
  induction ps generalizing te with
  | nil => rfl
  | cons p ps ih =>
    cases hstep : applyRules hf p correspondenceTable te with
    | mk te1 e =>
      have hk1 : keysOf te1 = keysOf te := by
        have h0 := keysOf_applyRules hf p correspondenceTable te
        rwa [hstep] at h0
      cases e with
      | none => simp [runLayers, hstep, ih, hk1]
      | some msg => simp [runLayers, hstep, hk1]

lemma runLayers_ok_char (hf : StateDict) (ps : List String) (te : StateDict)
    (h : ∀ p ∈ ps, ∀ r ∈ correspondenceTable,
      (p ++ r.tgt) ∈ keysOf te → (ruleVal hf p r).isSome) :
    runLayers hf ps te = (applyWrites te (allWrites hf (keysOf te) ps), none) := by
  induction ps generalizing te with
  | nil => rfl
  | cons p ps ih =>
    have h1 : ∀ r ∈ correspondenceTable,
        (p ++ r.tgt) ∈ keysOf te → (ruleVal hf p r).isSome :=
      fun r hr => h p (by simp) r hr
    have hchar := applyRules_ok_char hf p correspondenceTable te h1
    have hkeys :
        keysOf (applyWrites te (rulesWrites hf (keysOf te) p correspondenceTable)) =
          keysOf te := keysOf_applyWrites te _
    have hprem : ∀ p2 ∈ ps, ∀ r ∈ correspondenceTable,
        (p2 ++ r.tgt) ∈
            keysOf (applyWrites te (rulesWrites hf (keysOf te) p correspondenceTable)) →
        (ruleVal hf p2 r).isSome := by
      intro p2 hp2 r hr hk
      exact h p2 (List.mem_cons_of_mem _ hp2) r hr (by rwa [hkeys] at hk)
    simp only [runLayers, hchar]
    rw [ih _ hprem, hkeys, ← applyWrites_append]
    simp [allWrites]

lemma runLayers_ok_vals (hf : StateDict) (ps : List String) (te : StateDict)
    (h : (runLayers hf ps te).2 = none) :
    ∀ p ∈ ps, ∀ r ∈ correspondenceTable,
      (p ++ r.tgt) ∈ keysOf te → (ruleVal hf p r).isSome := by
  induction ps generalizing te with
  | nil => simp
  | cons p ps ih =>
    intro p2 hp2 r hr hk2
    cases hstep : applyRules hf p correspondenceTable te with
    | mk te1 e =>
      cases e with
      | some msg => simp [runLayers, hstep] at h
      | none =>
        have hk1 : keysOf te1 = keysOf te := by
          have h0 := keysOf_applyRules hf p correspondenceTable te
          rwa [hstep] at h0
        rcases List.mem_cons.mp hp2 with rfl | hmem
        · exact applyRules_ok_vals hf p2 _ te (by simp [hstep]) r hr hk2
        · have h2 : (runLayers hf ps te1).2 = none := by
            simpa [runLayers, hstep] using h
          exact ih te1 h2 p2 hmem r hr (by rwa [hk1])

lemma lastVal_rulesWrites (hf : StateDict) (tks : List String) (p : String)
    (rs : List Rule) (r : Rule) (v : Tensor)
    (hn : (rs.map Rule.tgt).Nodup) (hr : r ∈ rs)
    (hk : (p ++ r.tgt) ∈ tks) (hv : ruleVal hf p r = some v) :
    lastVal (rulesWrites hf tks p rs) (p ++ r.tgt) = some v := by
  induction rs with
  | nil => simp at hr
  | cons r0 rs ih =>
    simp only [List.map_cons, List.nodup_cons] at hn
    rcases List.mem_cons.mp hr with rfl | hmem
    · have hnone : lastVal (rulesWrites hf tks p rs) (p ++ r.tgt) = none := by
        apply lastVal_none_of_forall
        intro w hw hkeq
        obtain ⟨r2, hr2, hkey, _⟩ := mem_rulesWrites hw
        apply hn.1
        have htgt : r2.tgt = r.tgt :=
          str_append_cancel_left (hkey ▸ hkeq)
        exact htgt ▸ List.mem_map_of_mem Rule.tgt hr2
      have hrw : ruleWrite hf tks p r = some (p ++ r.tgt, v) := by
        simp [ruleWrite, hk, hv]
      simp only [rulesWrites] at hnone
      simp [rulesWrites, List.filterMap_cons, hrw, lastVal, hnone]
    · have hlast := ih hn.2 hmem
      simp only [rulesWrites] at hlast
      cases hrw : ruleWrite hf tks p r0 with
      | none => simpa [rulesWrites, List.filterMap_cons, hrw] using hlast
      | some w => simp [rulesWrites, List.filterMap_cons, hrw, lastVal, hlast]

lemma isDigitString_iff (d : String) :
    isDigitString d = true ↔ d.data ≠ [] ∧ ∀ c ∈ d.data, c.isDigit = true := by
  simp [isDigitString, List.all_eq_true, List.isEmpty_iff]

lemma canon_data (d s : String) :
    (layerPrefixStr d ++ s).data =
      'm' :: 'o' :: 'd' :: 'e' :: 'l' :: '.' :: 'l' :: 'a' :: 'y' :: 'e' :: 'r' :: 's' :: '.' ::
        (d.data ++ '.' :: s.data) := by
  have h13 : "model.layers.".data =
      ['m', 'o', 'd', 'e', 'l', '.', 'l', 'a', 'y', 'e', 'r', 's', '.'] := rfl
  have h1 : ".".data = ['.'] := rfl
  simp [layerPrefixStr, String.data_append, h13, h1]

lemma cp_data (d : String) :
    (layerPrefixStr d).data =
      'm' :: 'o' :: 'd' :: 'e' :: 'l' :: '.' :: 'l' :: 'a' :: 'y' :: 'e' :: 'r' :: 's' :: '.' ::
        (d.data ++ ['.']) := by
  have h13 : "model.layers.".data =
      ['m', 'o', 'd', 'e', 'l', '.', 'l', 'a', 'y', 'e', 'r', 's', '.'] := rfl
  have h1 : ".".data = ['.'] := rfl
  simp [layerPrefixStr, String.data_append, h13, h1]

lemma takeDigits_append (a : List Char) (c : Char) (r : List Char)
    (ha : ∀ x ∈ a, x.isDigit = true) (hc : c.isDigit = false) :
    takeDigits (a ++ c :: r) = (a, c :: r) := by
  induction a with
  | nil => simp [takeDigits, hc]
  | cons x a ih =>
    have hx : x.isDigit = true := ha x (by simp)
    simp [takeDigits, hx, ih (fun y hy => ha y (by simp [hy]))]

lemma matchChars_canon (dd sd : List Char) (hne : dd ≠ [])
    (hall : ∀ c ∈ dd, c.isDigit = true) :
    matchChars ('m' :: 'o' :: 'd' :: 'e' :: 'l' :: '.' :: 'l' :: 'a' :: 'y' :: 'e' :: 'r' :: 's' :: '.' ::
        (dd ++ '.' :: sd)) =
      some ('m' :: 'o' :: 'd' :: 'e' :: 'l' :: '.' :: 'l' :: 'a' :: 'y' :: 'e' :: 'r' :: 's' :: '.' ::
        (dd ++ ['.'])) := by
  obtain ⟨c0, cs, rfl⟩ := List.exists_cons_of_ne_nil hne
  have hdot : dotChar '.' = true := by decide
  have htd : takeDigits ((c0 :: cs) ++ '.' :: sd) = (c0 :: cs, '.' :: sd) :=
    takeDigits_append _ _ _ hall (by decide)
  rw [List.cons_append] at htd
  simp [matchChars, hdot, htd]

lemma layerPrefixMatch_canon (d s : String) (hd : isDigitString d = true) :
    layerPrefixMatch (layerPrefixStr d ++ s) = some (layerPrefixStr d) := by
  obtain ⟨hne, hall⟩ := (isDigitString_iff d).mp hd
  unfold layerPrefixMatch
  rw [canon_data d s, matchChars_canon d.data s.data hne hall]
  simp only [Option.map_some']
  exact congrArg some (str_ext (by rw [cp_data]))

lemma digit_sep_cancel {a b r1 r2 : List Char}
    (ha : ∀ c ∈ a, c.isDigit = true) (hb : ∀ c ∈ b, c.isDigit = true)
    (h : a ++ '.' :: r1 = b ++ '.' :: r2) : a = b ∧ r1 = r2 := by
  induction a generalizing b with
  | nil =>
    cases b with
    | nil => simpa using h
    | cons c bs =>
      have hc : c.isDigit = true := hb c (by simp)
      simp only [List.nil_append, List.cons_append, List.cons.injEq] at h
      rw [← h.1] at hc
      exact absurd hc (by decide)
  | cons c as ih =>
    cases b with
    | nil =>
      have hc : c.isDigit = true := ha c (by simp)
      simp only [List.nil_append, List.cons_append, List.cons.injEq] at h
      rw [h.1] at hc
      exact absurd hc (by decide)
    | cons c2 bs =>
      simp only [List.cons_append, List.cons.injEq] at h
      obtain ⟨h1, h2⟩ := h
      subst h1
      have hrest := ih (fun x hx => ha x (by simp [hx]))
        (fun x hx => hb x (by simp [hx])) h2
      exact ⟨by rw [hrest.1], hrest.2⟩

lemma canonKey_inj {d1 d2 t1 t2 : String}
    (h1 : isDigitString d1 = true) (h2 : isDigitString d2 = true)
    (h : layerPrefixStr d1 ++ t1 = layerPrefixStr d2 ++ t2) :
    d1 = d2 ∧ t1 = t2 := by
  obtain ⟨-, hall1⟩ := (isDigitString_iff d1).mp h1
  obtain ⟨-, hall2⟩ := (isDigitString_iff d2).mp h2
  have hd := congrArg String.data h
  rw [canon_data d1 t1, canon_data d2 t2] at hd
  simp only [List.cons.injEq, true_and] at hd
  obtain ⟨hda, hta⟩ := digit_sep_cancel hall1 hall2 hd
  exact ⟨str_ext hda, str_ext hta⟩

lemma layerPrefixStr_inj {d1 d2 : String}
    (h1 : isDigitString d1 = true) (h2 : isDigitString d2 = true)
    (h : layerPrefixStr d1 = layerPrefixStr d2) : d1 = d2 := by
  have h0 : layerPrefixStr d1 ++ "" = layerPrefixStr d2 ++ "" := by rw [h]
  exact (canonKey_inj h1 h2 h0).1

lemma lookup_map_keyed {α : Type} (l : List α) (key : α → String)
    (val : α → Tensor) (a : α) (ha : a ∈ l)
    (hinj : ∀ x ∈ l, key x = key a → val x = val a) :
    lookup (l.map (fun x => (key x, val x))) (key a) = some (val a) := by
  induction l with
  | nil => simp at ha
  | cons x xs ih =>
    by_cases hk : key x = key a
    · simp [lookup, hk, hinj x (by simp) hk]
    · rcases List.mem_cons.mp ha with rfl | hmem
      · exact absurd rfl hk
      · simp only [List.map_cons, lookup, if_neg hk]
        exact ih hmem (fun y hy => hinj y (by simp [hy]))

lemma lookup_mkLayer (f : String → String → Tensor) (d s : String)
    (hs : s ∈ hfSrcSuffixes) :
    lookup (mkLayer f d) (layerPrefixStr d ++ s) = some (f d s) :=
  lookup_map_keyed hfSrcSuffixes (fun s2 => layerPrefixStr d ++ s2) (f d) s hs
    (fun s2 _ hk => by rw [str_append_cancel_left hk])

lemma lookup_mkLayer_none (f : String → String → Tensor) (d d2 s : String)
    (hd : isDigitString d = true) (hd2 : isDigitString d2 = true)
    (hne : d ≠ d2) :
    lookup (mkLayer f d2) (layerPrefixStr d ++ s) = none := by
  apply lookup_none_of_forall
  intro e he
  simp only [mkLayer, List.mem_map] at he
  obtain ⟨s2, hs2, rfl⟩ := he
  intro hkey
  exact hne ((canonKey_inj hd2 hd hkey).1.symm)

lemma lookup_mkSource (idxs : List String) (f : String → String → Tensor)
    (d s : String) (hdig : ∀ x ∈ idxs, isDigitString x = true)
    (hmem : d ∈ idxs) (hs : s ∈ hfSrcSuffixes) :
    lookup (mkSource idxs f) (layerPrefixStr d ++ s) = some (f d s) := by
  induction idxs with
  | nil => simp at hmem
  | cons d0 rest ih =>
    have hflat : mkSource (d0 :: rest) f = mkLayer f d0 ++ mkSource rest f := by
      simp [mkSource]
    rw [hflat, lookup_append]
    by_cases h0 : d = d0
    · subst h0
      rw [lookup_mkLayer f d s hs]
    · have hn : lookup (mkLayer f d0) (layerPrefixStr d ++ s) = none :=
        lookup_mkLayer_none f d d0 s (hdig d hmem) (hdig d0 (by simp)) h0
      rw [hn]
      rcases List.mem_cons.mp hmem with rfl | hmem2
      · exact absurd rfl h0
      · exact ih (fun x hx => hdig x (by simp [hx])) hmem2

/-! ## Collected prefixes of a well-formed source set -/

lemma collectGo_append (K1 K2 acc : List String) :
    collectGo (K1 ++ K2) acc = collectGo K2 (collectGo K1 acc) := by
  induction K1 generalizing acc with
  | nil => rfl
  | cons k ks ih =>
    cases h : layerPrefixMatch k <;> simp [collectGo, h, ih]

lemma collectGo_const (ks : List String) (P : String) (acc : List String)
    (h : ∀ k ∈ ks, layerPrefixMatch k = some P) (hP : P ∈ acc) :
    collectGo ks acc = acc := by
  induction ks with
  | nil => rfl
  | cons k ks ih =>
    simp [collectGo, h k (by simp), hP,
      ih (fun k2 hk2 => h k2 (by simp [hk2]))]

lemma collectGo_allsome (ks : List String) (P : String) (acc : List String)
    (hne : ks ≠ []) (h : ∀ k ∈ ks, layerPrefixMatch k = some P)
    (hP : P ∉ acc) : collectGo ks acc = acc ++ [P] := by
  cases ks with
  | nil => exact absurd rfl hne
  | cons k ks =>
    simp only [collectGo, h k (by simp), if_neg hP]
    exact collectGo_const ks P (acc ++ [P])
      (fun k2 hk2 => h k2 (by simp [hk2])) (by simp)

lemma keysOf_mkLayer (f : String → String → Tensor) (d : String) :
    keysOf (mkLayer f d) = hfSrcSuffixes.map (fun s => layerPrefixStr d ++ s) := by
  unfold keysOf mkLayer
  rw [List.map_map]
  rfl

lemma match_keysOf_mkLayer (f : String → String → Tensor) (d : String)
    (hd : isDigitString d = true) :
    ∀ k ∈ keysOf (mkLayer f d), layerPrefixMatch k = some (layerPrefixStr d) := by
  intro k hk
  rw [keysOf_mkLayer] at hk
  obtain ⟨s, hs, rfl⟩ := List.mem_map.mp hk
  exact layerPrefixMatch_canon d s hd

lemma collectGo_mkSource (idxs : List String) (f : String → String → Tensor)
    (acc : List String) (hd : ∀ x ∈ idxs, isDigitString x = true)
    (hn : idxs.Nodup) (hdisj : ∀ x ∈ idxs, layerPrefixStr x ∉ acc) :
    collectGo (keysOf (mkSource idxs f)) acc = acc ++ idxs.map layerPrefixStr := by
  induction idxs generalizing acc with
  | nil => simp [mkSource, collectGo, keysOf]
  | cons d rest ih =>
    have hkeys : keysOf (mkSource (d :: rest) f) =
        keysOf (mkLayer f d) ++ keysOf (mkSource rest f) := by
      simp [mkSource, keysOf]
    rw [hkeys, collectGo_append]
    have hstep : collectGo (keysOf (mkLayer f d)) acc = acc ++ [layerPrefixStr d] :=
      collectGo_allsome _ _ _ (by simp [keysOf_mkLayer, hfSrcSuffixes])
        (match_keysOf_mkLayer f d (hd d (by simp))) (hdisj d (by simp))
    rw [hstep]
    have hdisj2 : ∀ x ∈ rest, layerPrefixStr x ∉ acc ++ [layerPrefixStr d] := by
      intro x hx
      simp only [List.mem_append, List.mem_singleton]
      rintro (hin | heq)
      · exact hdisj x (by simp [hx]) hin
      · apply (List.nodup_cons.mp hn).1
        have hxd : x = d :=
          layerPrefixStr_inj (hd x (by simp [hx])) (hd d (by simp)) heq
        rw [← hxd]
        exact hx
    rw [ih _ (fun x hx => hd x (by simp [hx])) (List.nodup_cons.mp hn).2 hdisj2]
    simp

lemma collectPrefixes_mkSource (idxs : List String) (f : String → String → Tensor)
    (hd : ∀ x ∈ idxs, isDigitString x = true) (hn : idxs.Nodup) :
    collectPrefixes (keysOf (mkSource idxs f)) = idxs.map layerPrefixStr := by
  have h0 := collectGo_mkSource idxs f [] hd hn (by simp)
  simpa [collectPrefixes] using h0

lemma ruleVal_mkSource (idxs : List String) (f : String → String → Tensor)
    (d : String) (r : Rule) (hd : ∀ x ∈ idxs, isDigitString x = true)
    (hmem : d ∈ idxs) (hr : r ∈ correspondenceTable) :
    ruleVal (mkSource idxs f) (layerPrefixStr d) r = some (expectedVal f d r) := by
  have hlk : ∀ s ∈ hfSrcSuffixes,
      lookup (mkSource idxs f) (layerPrefixStr d ++ s) = some (f d s) :=
    fun s hs => lookup_mkSource idxs f d s hd hmem hs
  simp only [correspondenceTable, List.mem_cons, List.not_mem_nil, or_false] at hr
  rcases hr with rfl | rfl | rfl | rfl | rfl | rfl | rfl | rfl <;>
    simp [ruleVal, expectedVal, hfSrcSuffixes, hlk]

/-! ## The final target state after remapping a well-formed source set -/

lemma replace_params_mkSource (idxs : List String) (f : String → String → Tensor)
    (te : StateDict) (hd : ∀ x ∈ idxs, isDigitString x = true)
    (hn : idxs.Nodup) :
    replace_params (mkSource idxs f) te =
      ⟨applyWrites te
         (allWrites (mkSource idxs f) (keysOf te) (idxs.map layerPrefixStr)),
       idxs.map layerPrefixStr, none⟩ := by
  have hcp := collectPrefixes_mkSource idxs f hd hn
  have hvals : ∀ p ∈ idxs.map layerPrefixStr, ∀ r ∈ correspondenceTable,
      (p ++ r.tgt) ∈ keysOf te → (ruleVal (mkSource idxs f) p r).isSome := by
    intro p hp r hr _
    obtain ⟨d, hdm, rfl⟩ := List.mem_map.mp hp
    rw [ruleVal_mkSource idxs f d r hd hdm hr]
    rfl
  have hrun := runLayers_ok_char (mkSource idxs f) (idxs.map layerPrefixStr) te hvals
  simp [replace_params, hcp, hrun]

lemma table_tgt_nodup : (correspondenceTable.map Rule.tgt).Nodup := by decide

lemma lastVal_allWrites_mkSource (idxs : List String)
    (f : String → String → Tensor) (tks : List String) (d : String) (r : Rule)
    (hd : ∀ x ∈ idxs, isDigitString x = true) (hn : idxs.Nodup)
    (hdm : d ∈ idxs) (hr : r ∈ correspondenceTable)
    (hk : (layerPrefixStr d ++ r.tgt) ∈ tks) :
    lastVal (allWrites (mkSource idxs f) tks (idxs.map layerPrefixStr))
        (layerPrefixStr d ++ r.tgt) = some (expectedVal f d r) := by
  obtain ⟨l1, l2, rfl⟩ := List.append_of_mem hdm
  have hd2 : ∀ x ∈ l2, isDigitString x = true := fun x hx => hd x (by simp [hx])
  have hdd : isDigitString d = true := hd d (by simp)
  have hdisj : d ∉ l2 :=
    (List.nodup_cons.mp (List.nodup_append.mp hn).2.1).1
  have hsplit : allWrites (mkSource (l1 ++ d :: l2) f) tks
        ((l1 ++ d :: l2).map layerPrefixStr) =
      allWrites (mkSource (l1 ++ d :: l2) f) tks (l1.map layerPrefixStr) ++
        (rulesWrites (mkSource (l1 ++ d :: l2) f) tks (layerPrefixStr d)
            correspondenceTable ++
          allWrites (mkSource (l1 ++ d :: l2) f) tks (l2.map layerPrefixStr)) := by
    simp [allWrites]
  have hnone2 : lastVal (allWrites (mkSource (l1 ++ d :: l2) f) tks
      (l2.map layerPrefixStr)) (layerPrefixStr d ++ r.tgt) = none := by
    apply lastVal_none_of_forall
    intro w hw hkeq
    simp only [allWrites, List.mem_flatten, List.mem_map] at hw
    obtain ⟨L, ⟨p2, hp2, rfl⟩, hwL⟩ := hw
    obtain ⟨x, hx2, rfl⟩ := hp2
    obtain ⟨r2, _, hkey, _⟩ := mem_rulesWrites hwL
    rw [hkey] at hkeq
    exact hdisj ((canonKey_inj (hd2 x hx2) hdd hkeq).1 ▸ hx2)
  have hmid : lastVal (rulesWrites (mkSource (l1 ++ d :: l2) f) tks
      (layerPrefixStr d) correspondenceTable) (layerPrefixStr d ++ r.tgt) =
      some (expectedVal f d r) :=
    lastVal_rulesWrites _ tks _ correspondenceTable r (expectedVal f d r)
      table_tgt_nodup hr hk (ruleVal_mkSource _ f d r hd hdm hr)
  rw [hsplit, lastVal_append]
  rw [lastVal_append, hnone2, hmid]

lemma lookup_replace_params_mkSource (idxs : List String)
    (f : String → String → Tensor) (te : StateDict) (d : String) (r : Rule)
    (hd : ∀ x ∈ idxs, isDigitString x = true) (hn : idxs.Nodup)
    (hdm : d ∈ idxs) (hr : r ∈ correspondenceTable)
    (hk : (layerPrefixStr d ++ r.tgt) ∈ keysOf te) :
    lookup (replace_params (mkSource idxs f) te).te (layerPrefixStr d ++ r.tgt) =
      some (expectedVal f d r) := by
  obtain ⟨v0, hv0⟩ :=
    Option.isSome_iff_exists.mp ((lookup_isSome_iff_mem te _).mpr hk)
  have hlast := lastVal_allWrites_mkSource idxs f (keysOf te) d r hd hn hdm hr hk
  rw [replace_params_mkSource idxs f te hd hn]
  show lookup (applyWrites te
      (allWrites (mkSource idxs f) (keysOf te) (idxs.map layerPrefixStr)))
      (layerPrefixStr d ++ r.tgt) = some (expectedVal f d r)
  rw [lookup_applyWrites, hv0]
  simp [hlast]

lemma keysOf_replace_params (hf te : StateDict) :
    keysOf (replace_params hf te).te = keysOf te :=
  keysOf_runLayers hf _ te

/-- C1: for every source set containing all expected source keys for each of
its K layer prefixes (K ≥ 0, arbitrary digit-string indices) and a target
set containing the corresponding target keys, `replace_params` raises
nothing and afterwards every target tensor listed in the correspondence
table equals its specified source tensor; in particular
`layernorm_mlp.fc1_weight` equals the axis-0 concatenation of
`mlp.gate_proj.weight` followed by `mlp.up_proj.weight`, in that order and
never the reverse. -/
theorem C1_full_remap_correct (idxs : List String)
    (f : String → String → Tensor) (te : StateDict)
    (hd : ∀ x ∈ idxs, isDigitString x = true) (hn : idxs.Nodup)
    (ht : ∀ d ∈ idxs, ∀ r ∈ correspondenceTable,
      (layerPrefixStr d ++ r.tgt) ∈ keysOf te) :
    (replace_params (mkSource idxs f) te).err = none ∧
    ∀ d ∈ idxs,
      lookup (replace_params (mkSource idxs f) te).te
          (layerPrefixStr d ++ "self_attention.layernorm_qkv.layer_norm_weight") =
        some (f d "input_layernorm.weight") ∧
      lookup (replace_params (mkSource idxs f) te).te
          (layerPrefixStr d ++ "self_attention.layernorm_qkv.query_weight") =
        some (f d "self_attn.q_proj.weight") ∧
      lookup (replace_params (mkSource idxs f) te).te
          (layerPrefixStr d ++ "self_attention.layernorm_qkv.key_weight") =
        some (f d "self_attn.k_proj.weight") ∧
      lookup (replace_params (mkSource idxs f) te).te
          (layerPrefixStr d ++ "self_attention.layernorm_qkv.value_weight") =
        some (f d "self_attn.v_proj.weight") ∧
      lookup (replace_params (mkSource idxs f) te).te
          (layerPrefixStr d ++ "self_attention.proj.weight") =
        some (f d "self_attn.o_proj.weight") ∧
      lookup (replace_params (mkSource idxs f) te).te
          (layerPrefixStr d ++ "layernorm_mlp.layer_norm_weight") =
        some (f d "post_attention_layernorm.weight") ∧
      lookup (replace_params (mkSource idxs f) te).te
          (layerPrefixStr d ++ "layernorm_mlp.fc1_weight") =
        some (catRows (f d "mlp.gate_proj.weight") (f d "mlp.up_proj.weight")) ∧
      (catRows (f d "mlp.up_proj.weight") (f d "mlp.gate_proj.weight") ≠
          catRows (f d "mlp.gate_proj.weight") (f d "mlp.up_proj.weight") →
        lookup (replace_params (mkSource idxs f) te).te
            (layerPrefixStr d ++ "layernorm_mlp.fc1_weight") ≠
          some (catRows (f d "mlp.up_proj.weight") (f d "mlp.gate_proj.weight"))) ∧
      lookup (replace_params (mkSource idxs f) te).te
          (layerPrefixStr d ++ "layernorm_mlp.fc2_weight") =
        some (f d "mlp.down_proj.weight") := by
  have herr : (replace_params (mkSource idxs f) te).err = none := by
    rw [replace_params_mkSource idxs f te hd hn]
  refine ⟨herr, ?_⟩
  intro d hdm
  have hTab : ∀ r ∈ correspondenceTable,
      lookup (replace_params (mkSource idxs f) te).te (layerPrefixStr d ++ r.tgt) =
        some (expectedVal f d r) :=
    fun r hr =>
      lookup_replace_params_mkSource idxs f te d r hd hn hdm hr (ht d hdm r hr)
  have h7 := hTab
    ⟨"layernorm_mlp.fc1_weight", .cat "mlp.gate_proj.weight" "mlp.up_proj.weight"⟩
    (by simp [correspondenceTable])
  refine ⟨hTab ⟨"self_attention.layernorm_qkv.layer_norm_weight",
      .single "input_layernorm.weight"⟩ (by simp [correspondenceTable]),
    hTab ⟨"self_attention.layernorm_qkv.query_weight",
      .single "self_attn.q_proj.weight"⟩ (by simp [correspondenceTable]),
    hTab ⟨"self_attention.layernorm_qkv.key_weight",
      .single "self_attn.k_proj.weight"⟩ (by simp [correspondenceTable]),
    hTab ⟨"self_attention.layernorm_qkv.value_weight",
      .single "self_attn.v_proj.weight"⟩ (by simp [correspondenceTable]),
    hTab ⟨"self_attention.proj.weight",
      .single "self_attn.o_proj.weight"⟩ (by simp [correspondenceTable]),
    hTab ⟨"layernorm_mlp.layer_norm_weight",
      .single "post_attention_layernorm.weight"⟩ (by simp [correspondenceTable]),
    h7, ?_,
    hTab ⟨"layernorm_mlp.fc2_weight",
      .single "mlp.down_proj.weight"⟩ (by simp [correspondenceTable])⟩
  intro hne hcon
  rw [h7] at hcon
  exact hne (Option.some_inj.mp hcon).symm

/-- Witness for C1 at one layer with distinguishable tensors: gate and up
projections have different lengths, and the fused weight comes out as gate
rows followed by up rows. -/
theorem C1_full_remap_correct_witness :
    (∀ x ∈ ["0"], isDigitString x = true) ∧
    lookup (replace_params (mkSource ["0"] fLen) teAll0).te
        "model.layers.0.layernorm_mlp.fc1_weight" = some [[20], [18]] := by
  have h := C1_full_remap_correct ["0"] fLen teAll0 (by decide) (by decide)
    (by decide)
  have h0 := h.2 "0" (by simp)
  exact ⟨by decide, h0.2.2.2.2.2.2.1⟩

/-- C2: a correspondence rule is applied iff its target key exists in the
target set.  For a source set holding all expected source keys, whatever
the target set: no error is raised (rules whose target key is absent are
skipped silently, in particular when the target models fewer layers than
the source), every listed target key that does exist receives its specified
source tensor, and no absent key is created. -/
theorem C2_partial_target_safe (idxs : List String)
    (f : String → String → Tensor) (te : StateDict)
    (hd : ∀ x ∈ idxs, isDigitString x = true) (hn : idxs.Nodup) :
    (replace_params (mkSource idxs f) te).err = none ∧
    (∀ d ∈ idxs, ∀ r ∈ correspondenceTable,
      (layerPrefixStr d ++ r.tgt) ∈ keysOf te →
      lookup (replace_params (mkSource idxs f) te).te (layerPrefixStr d ++ r.tgt) =
        some (expectedVal f d r)) ∧
    (∀ k, k ∉ keysOf te → lookup (replace_params (mkSource idxs f) te).te k = none) := by
  refine ⟨?_, ?_, ?_⟩
  · rw [replace_params_mkSource idxs f te hd hn]
  · intro d hdm r hr hk
    exact lookup_replace_params_mkSource idxs f te d r hd hn hdm hr hk
  · intro k hk
    have hkeys := keysOf_replace_params (mkSource idxs f) te
    rcases hlk : lookup (replace_params (mkSource idxs f) te).te k with _ | v
    · rfl
    · exfalso
      apply hk
      rw [← hkeys]
      exact (lookup_isSome_iff_mem _ k).mp (by rw [hlk]; rfl)

/-- Witness for C2: the source provides layers `0` and `7`, the target only
holds layer 0's `fc2_weight`; nothing is raised, the present key is updated
from `mlp.down_proj.weight`, and no key is created. -/
theorem C2_partial_target_safe_witness :
    (∀ x ∈ ["0", "7"], isDigitString x = true) ∧
    (["0", "7"] : List String).Nodup ∧
    (replace_params (mkSource ["0", "7"] fLen)
      [("model.layers.0.layernorm_mlp.fc2_weight", [[0]])]).err = none ∧
    lookup (replace_params (mkSource ["0", "7"] fLen)
        [("model.layers.0.layernorm_mlp.fc2_weight", [[0]])]).te
      "model.layers.0.layernorm_mlp.fc2_weight" = some [[20]] := by
  have h := C2_partial_target_safe ["0", "7"] fLen
    [("model.layers.0.layernorm_mlp.fc2_weight", [[0]])] (by decide) (by decide)
  refine ⟨by decide, by decide, h.1, ?_⟩
  exact h.2.1 "0" (by simp)
    ⟨"layernorm_mlp.fc2_weight", .single "mlp.down_proj.weight"⟩
    (by simp [correspondenceTable]) (by decide)

/-- C9: `replace_params` never creates a key in the target set: whatever the
source and target sets (and whether or not the run raises), the keys of the
target set after the call are exactly the keys before it; only values of
already existing entries are overwritten. -/
theorem C9_no_new_keys (hf te : StateDict) :
    keysOf (replace_params hf te).te = keysOf te :=
  keysOf_replace_params hf te

lemma collectGo_nomatch (ks : List String) (acc : List String)
    (h : ∀ k ∈ ks, layerPrefixMatch k = none) : collectGo ks acc = acc := by
  induction ks with
  | nil => rfl
  | cons k ks ih =>
    simp [collectGo, h k (by simp), ih (fun k2 hk2 => h k2 (by simp [hk2]))]

/-- C10: if no source key matches the anchored pattern `model.layers.<digits>.`
(for example a source set holding only `model.embed_tokens.weight`), then
`replace_params` collects no prefix, changes nothing in the target set and
raises no error. -/
theorem C10_nonlayer_keys_ignored (hf te : StateDict)
    (h : ∀ k ∈ keysOf hf, layerPrefixMatch k = none) :
    replace_params hf te = ⟨te, [], none⟩ := by
  have h0 : collectPrefixes (keysOf hf) = [] := collectGo_nomatch _ _ h
  simp [replace_params, h0, runLayers]

/-- Witness for C10: an embedding key and a final-norm target are left
exactly as they were. -/
theorem C10_nonlayer_keys_ignored_witness :
    (∀ k ∈ keysOf [("model.embed_tokens.weight", [[5]])],
      layerPrefixMatch k = none) ∧
    replace_params [("model.embed_tokens.weight", [[5]])]
        [("model.norm.weight", [[7]])] =
      ⟨[("model.norm.weight", [[7]])], [], none⟩ :=
  ⟨by decide,
   C10_nonlayer_keys_ignored [("model.embed_tokens.weight", [[5]])]
     [("model.norm.weight", [[7]])] (by decide)⟩

lemma applyWrites_idem (te : StateDict) (W : List (String × Tensor)) :
    applyWrites (applyWrites te W) W = applyWrites te W := by
  rw [applyWrites_eq_map te W, applyWrites_eq_map, List.map_map]
  apply List.map_congr_left
  intro e _
  cases hl : lastVal W e.1 <;> simp [Function.comp, hl]

/-- C5: if `replace_params` succeeds, running it again with the same source
data returns the same target state, the same prefixes and no error: the
second run changes nothing beyond what the first established. -/
theorem C5_idempotent (hf te : StateDict)
    (h : (replace_params hf te).err = none) :
    replace_params hf (replace_params hf te).te = replace_params hf te := by
  have herr : (runLayers hf (collectPrefixes (keysOf hf)) te).2 = none := h
  have hvals := runLayers_ok_vals hf (collectPrefixes (keysOf hf)) te herr
  have hchar := runLayers_ok_char hf (collectPrefixes (keysOf hf)) te hvals
  have hte1 : (replace_params hf te).te =
      applyWrites te (allWrites hf (keysOf te) (collectPrefixes (keysOf hf))) := by
    show (runLayers hf (collectPrefixes (keysOf hf)) te).1 = _
    rw [hchar]
  have hkeys1 : keysOf (replace_params hf te).te = keysOf te :=
    keysOf_replace_params hf te
  have hvals1 : ∀ p ∈ collectPrefixes (keysOf hf), ∀ r ∈ correspondenceTable,
      (p ++ r.tgt) ∈ keysOf (replace_params hf te).te → (ruleVal hf p r).isSome := by
    intro p hp r hr hk
    exact hvals p hp r hr (by rwa [hkeys1] at hk)
  have hchar1 := runLayers_ok_char hf (collectPrefixes (keysOf hf))
    (replace_params hf te).te hvals1
  have hres : replace_params hf (replace_params hf te).te =
      ⟨applyWrites (replace_params hf te).te
          (allWrites hf (keysOf (replace_params hf te).te)
            (collectPrefixes (keysOf hf))),
        collectPrefixes (keysOf hf), none⟩ := by
    generalize (replace_params hf te).te = T at hchar1
    simp [replace_params, hchar1]
  rw [hres, hkeys1, hte1, applyWrites_idem]
  simp [replace_params, hchar]

/-- Witness for C5: one layer-norm weight is remapped; a second run leaves
the target bit-for-bit identical. -/
theorem C5_idempotent_witness :
    (replace_params [("model.layers.0.input_layernorm.weight", [[5]])]
      [("model.layers.0.self_attention.layernorm_qkv.layer_norm_weight", [[0]])]).err =
        none ∧
    replace_params [("model.layers.0.input_layernorm.weight", [[5]])]
        (replace_params [("model.layers.0.input_layernorm.weight", [[5]])]
          [("model.layers.0.self_attention.layernorm_qkv.layer_norm_weight", [[0]])]).te =
      replace_params [("model.layers.0.input_layernorm.weight", [[5]])]
        [("model.layers.0.self_attention.layernorm_qkv.layer_norm_weight", [[0]])] :=
  ⟨by decide,
   C5_idempotent [("model.layers.0.input_layernorm.weight", [[5]])]
     [("model.layers.0.self_attention.layernorm_qkv.layer_norm_weight", [[0]])]
     (by decide)⟩

/-- C3 counterexample: with a source key for layer `0` but an empty target
set, `replace_params` overwrites nothing (the target is returned unchanged
and empty) yet still returns the prefix `model.layers.0.` — so the returned
set is not the set of prefixes whose target parameters were actually
overwritten. -/
theorem C3_counterexample :
    (replace_params [("model.layers.0.input_layernorm.weight", [[1]])] []).te = [] ∧
    (replace_params [("model.layers.0.input_layernorm.weight", [[1]])] []).err = none ∧
    (replace_params [("model.layers.0.input_layernorm.weight", [[1]])] []).prefixList =
      ["model.layers.0."] := by
  decide

lemma mem_collectGo (ks acc : List String) (p : String) :
    p ∈ collectGo ks acc ↔ p ∈ acc ∨ ∃ k ∈ ks, layerPrefixMatch k = some p := by
  induction ks generalizing acc with
  | nil => simp [collectGo]
  | cons k ks ih =>
    cases h : layerPrefixMatch k with
    | none =>
      simp [collectGo, h, ih]
    | some q =>
      by_cases hq : q ∈ acc
      · have hcov : q = p → p ∈ acc := fun hqp => hqp ▸ hq
        simp [collectGo, h, hq, ih]
        tauto
      · simp [collectGo, h, hq, ih]
        tauto

lemma collectGo_nodup (ks acc : List String) (h : acc.Nodup) :
    (collectGo ks acc).Nodup := by
  induction ks generalizing acc with
  | nil => exact h
  | cons k ks ih =>
    cases hm : layerPrefixMatch k with
    | none =>
      simp only [collectGo, hm]
      exact ih _ h
    | some q =>
      by_cases hq : q ∈ acc
      · simp only [collectGo, hm, if_pos hq]
        exact ih _ h
      · simp only [collectGo, hm, if_neg hq]
        refine ih _ ?_
        simp [List.nodup_append, h, hq]

/-- C3 amended: `replace_params` returns exactly the set of all layer
prefixes matched among the source set's keys — including prefixes for which
no target key exists and whose layer therefore had nothing overwritten. -/
theorem C3_amended_prefixes (hf te : StateDict) :
    (replace_params hf te).prefixList = collectPrefixes (keysOf hf) ∧
    (∀ p, p ∈ (replace_params hf te).prefixList ↔
      ∃ k ∈ keysOf hf, layerPrefixMatch k = some p) ∧
    (replace_params hf te).prefixList.Nodup := by
  refine ⟨rfl, ?_, collectGo_nodup _ _ (by simp)⟩
  intro p
  show p ∈ collectPrefixes (keysOf hf) ↔ _
  rw [collectPrefixes, mem_collectGo]
  simp

/-- C8: if some collected layer prefix has a rule whose target key exists in
the target set but whose required source key is absent from the source set,
`replace_params` raises a lookup failure (`err` is set); source-key presence
is never checked defensively before applying an applicable rule. -/
theorem C8_missing_source_raises (hf te : StateDict) (p : String) (r : Rule)
    (hp : p ∈ collectPrefixes (keysOf hf)) (hr : r ∈ correspondenceTable)
    (hk : (p ++ r.tgt) ∈ keysOf te) (hs : ruleVal hf p r = none) :
    (replace_params hf te).err.isSome := by
  cases he : (replace_params hf te).err with
  | some e => rfl
  | none =>
    exfalso
    have herr : (runLayers hf (collectPrefixes (keysOf hf)) te).2 = none := he
    have hsome := runLayers_ok_vals hf (collectPrefixes (keysOf hf)) te herr p hp r hr hk
    rw [hs] at hsome
    simp at hsome

/-- Witness for C8: the source provides only `input_layernorm.weight` of
layer 0, the target wants `query_weight`; the run raises on the missing
`self_attn.q_proj.weight`. -/
theorem C8_missing_source_raises_witness :
    ("model.layers.0." ∈ collectPrefixes
      (keysOf [("model.layers.0.input_layernorm.weight", [[1]])])) ∧
    (replace_params [("model.layers.0.input_layernorm.weight", [[1]])]
      [("model.layers.0.self_attention.layernorm_qkv.query_weight", [[0]])]).err.isSome :=
  ⟨by decide,
   C8_missing_source_raises
     [("model.layers.0.input_layernorm.weight", [[1]])]
     [("model.layers.0.self_attention.layernorm_qkv.query_weight", [[0]])]
     "model.layers.0."
     ⟨"self_attention.layernorm_qkv.query_weight", .single "self_attn.q_proj.weight"⟩
     (by decide) (by decide) (by decide) (by decide)⟩

lemma runShards_cons_ok (hf : StateDict) (rest : List StateDict)
    (te te1 : StateDict) (ps : List String)
    (h : replace_params hf te = ⟨te1, ps, none⟩) :
    runShards (hf :: rest) te = runShards rest te1 := by
  simp [runShards, h]

lemma rulesWrites_mkSource_congr (big sub : List String)
    (f : String → String → Tensor) (tks : List String) (d : String)
    (hdbig : ∀ x ∈ big, isDigitString x = true)
    (hdsub : ∀ x ∈ sub, isDigitString x = true)
    (hmb : d ∈ big) (hms : d ∈ sub) :
    rulesWrites (mkSource big f) tks (layerPrefixStr d) correspondenceTable =
      rulesWrites (mkSource sub f) tks (layerPrefixStr d) correspondenceTable := by
  unfold rulesWrites
  apply List.filterMap_congr
  intro r hr
  unfold ruleWrite
  rw [ruleVal_mkSource big f d r hdbig hmb hr,
    ruleVal_mkSource sub f d r hdsub hms hr]

lemma allWrites_mkSource_append (i1 i2 : List String)
    (f : String → String → Tensor) (tks : List String)
    (hd : ∀ x ∈ i1 ++ i2, isDigitString x = true) :
    allWrites (mkSource (i1 ++ i2) f) tks ((i1 ++ i2).map layerPrefixStr) =
      allWrites (mkSource i1 f) tks (i1.map layerPrefixStr) ++
        allWrites (mkSource i2 f) tks (i2.map layerPrefixStr) := by
  unfold allWrites
  rw [List.map_append, List.map_append, List.flatten_append]
  congr 1
  · apply congrArg List.flatten
    apply List.map_congr_left
    intro p hp
    obtain ⟨d, hdm, rfl⟩ := List.mem_map.mp hp
    exact rulesWrites_mkSource_congr (i1 ++ i2) i1 f tks d hd
      (fun x hx => hd x (by simp [hx])) (by simp [hdm]) hdm
  · apply congrArg List.flatten
    apply List.map_congr_left
    intro p hp
    obtain ⟨d, hdm, rfl⟩ := List.mem_map.mp hp
    exact rulesWrites_mkSource_congr (i1 ++ i2) i2 f tks d hd
      (fun x hx => hd x (by simp [hx])) (by simp [hdm]) hdm

lemma allWrites_keys_disjoint (i1 i2 : List String)
    (f g : String → String → Tensor) (tks1 tks2 : List String)
    (hd1 : ∀ x ∈ i1, isDigitString x = true)
    (hd2 : ∀ x ∈ i2, isDigitString x = true)
    (hdisj : i1.Disjoint i2) :
    ∀ w1 ∈ allWrites (mkSource i1 f) tks1 (i1.map layerPrefixStr),
      ∀ w2 ∈ allWrites (mkSource i2 g) tks2 (i2.map layerPrefixStr),
        w1.1 ≠ w2.1 := by
  intro w1 hw1 w2 hw2 heq
  simp only [allWrites, List.mem_flatten, List.mem_map] at hw1 hw2
  obtain ⟨L1, ⟨p1, ⟨d1, hd1m, rfl⟩, rfl⟩, hw1L⟩ := hw1
  obtain ⟨L2, ⟨p2, ⟨d2, hd2m, rfl⟩, rfl⟩, hw2L⟩ := hw2
  obtain ⟨r1, _, hk1, _⟩ := mem_rulesWrites hw1L
  obtain ⟨r2, _, hk2, _⟩ := mem_rulesWrites hw2L
  rw [hk1, hk2] at heq
  have hdd := (canonKey_inj (hd1 d1 hd1m) (hd2 d2 hd2m) heq).1
  exact hdisj hd1m (hdd ▸ hd2m)

lemma applyWrites_comm (te : StateDict) (W1 W2 : List (String × Tensor))
    (h : ∀ w1 ∈ W1, ∀ w2 ∈ W2, w1.1 ≠ w2.1) :
    applyWrites te (W1 ++ W2) = applyWrites te (W2 ++ W1) := by
  rw [applyWrites_eq_map, applyWrites_eq_map]
  apply List.map_congr_left
  intro e _
  rw [lastVal_comm W1 W2 e.1 h]

/-- C4: feeding a full parameter set in two shards split along the
layer-prefix boundary, in either order, leaves the target set in exactly
the same final state as feeding it in one shard. -/
theorem C4_shard_split_equiv (i1 i2 : List String)
    (f : String → String → Tensor) (te : StateDict)
    (hd : ∀ x ∈ i1 ++ i2, isDigitString x = true)
    (hn : (i1 ++ i2).Nodup) :
    runShards [mkSource i1 f, mkSource i2 f] te =
      runShards [mkSource (i1 ++ i2) f] te ∧
    runShards [mkSource i2 f, mkSource i1 f] te =
      runShards [mkSource (i1 ++ i2) f] te := by
  have hd1 : ∀ x ∈ i1, isDigitString x = true := fun x hx => hd x (by simp [hx])
  have hd2 : ∀ x ∈ i2, isDigitString x = true := fun x hx => hd x (by simp [hx])
  obtain ⟨hn1, hn2, hdisj⟩ := List.nodup_append.mp hn
  have hW := allWrites_mkSource_append i1 i2 f (keysOf te) hd
  have hkd := allWrites_keys_disjoint i1 i2 f f (keysOf te) (keysOf te) hd1 hd2 hdisj
  have hwhole := replace_params_mkSource (i1 ++ i2) f te hd hn
  have h1 := replace_params_mkSource i1 f te hd1 hn1
  have h2 := replace_params_mkSource i2 f te hd2 hn2
  have hkeys1 : keysOf (applyWrites te
      (allWrites (mkSource i1 f) (keysOf te) (i1.map layerPrefixStr))) = keysOf te :=
    keysOf_applyWrites te _
  have hkeys2 : keysOf (applyWrites te
      (allWrites (mkSource i2 f) (keysOf te) (i2.map layerPrefixStr))) = keysOf te :=
    keysOf_applyWrites te _
  have h2after1 := replace_params_mkSource i2 f
    (applyWrites te (allWrites (mkSource i1 f) (keysOf te) (i1.map layerPrefixStr)))
    hd2 hn2
  rw [hkeys1] at h2after1
  have h1after2 := replace_params_mkSource i1 f
    (applyWrites te (allWrites (mkSource i2 f) (keysOf te) (i2.map layerPrefixStr)))
    hd1 hn1
  rw [hkeys2] at h1after2
  constructor
  · rw [runShards_cons_ok _ _ _ _ _ h1, runShards_cons_ok _ _ _ _ _ h2after1,
      runShards_cons_ok _ _ _ _ _ hwhole]
    show (applyWrites (applyWrites te _) _, none) = (applyWrites te _, none)
    rw [← applyWrites_append, hW]
  · rw [runShards_cons_ok _ _ _ _ _ h2, runShards_cons_ok _ _ _ _ _ h1after2,
      runShards_cons_ok _ _ _ _ _ hwhole]
    show (applyWrites (applyWrites te _) _, none) = (applyWrites te _, none)
    rw [← applyWrites_append,
      applyWrites_comm te _ _ (fun w2 hw2 w1 hw1 => (hkd w1 hw1 w2 hw2).symm), hW]

/-- Witness for C4: layers 0 and 1 in one shard versus two shards (both
orders), with a target holding layer 1's `fc2_weight`. -/
theorem C4_shard_split_equiv_witness :
    (∀ x ∈ ["0"] ++ ["1"], isDigitString x = true) ∧
    ((["0"] ++ ["1"] : List String)).Nodup ∧
    (runShards [mkSource ["0"] fLen, mkSource ["1"] fLen]
        [("model.layers.1.layernorm_mlp.fc2_weight", [[0]])] =
      runShards [mkSource (["0"] ++ ["1"]) fLen]
        [("model.layers.1.layernorm_mlp.fc2_weight", [[0]])]) ∧
    (runShards [mkSource ["1"] fLen, mkSource ["0"] fLen]
        [("model.layers.1.layernorm_mlp.fc2_weight", [[0]])] =
      runShards [mkSource (["0"] ++ ["1"]) fLen]
        [("model.layers.1.layernorm_mlp.fc2_weight", [[0]])]) := by
  have h := C4_shard_split_equiv ["0"] ["1"] fLen
    [("model.layers.1.layernorm_mlp.fc2_weight", [[0]])] (by decide) (by decide)
  exact ⟨by decide, by decide, h.1, h.2⟩

/-- C6: constructing a `TELlamaForCausalLM` substitutes the decoder-layer
class only for the duration of construction — the constructor observes the
slot holding `TELlamaDecoderLayer` — and the original class is restored on
every exit path: the global slot after the call equals the slot before it,
whether construction returned a model or raised. -/
theorem C6_class_slot_restored {ε α : Type} (construct : StM DecoderCls ε α)
    (slot : DecoderCls) :
    (TELlamaForCausalLM_new construct slot).1 = slot ∧
    (TELlamaForCausalLM_new construct slot).2 =
      (construct DecoderCls.teLlamaDecoderLayer).2 :=
  ⟨rfl, rfl⟩

/-- C7: without the sharded-checkpoint index file, `from_pretrained_local`
fails with the assertion-style unsupported-format error and stops before
loading anything — the outcome is independent of the shard contents; with
the index file present it proceeds to resolve and load the shards. -/
theorem C7_requires_sharded_index (ck : Checkpoint) (te : StateDict) :
    (ck.hasWeightsIndex = false →
      from_pretrained_local ck te =
        .error "Only sharded PyTorch ckpt format supported at the moment" ∧
      ∀ shards2, from_pretrained_local ⟨false, shards2⟩ te =
        from_pretrained_local ck te) ∧
    (ck.hasWeightsIndex = true →
      from_pretrained_local ck te = .ok (runShards ck.shards te)) := by
  constructor
  · intro hfalse
    constructor
    · simp [from_pretrained_local, hfalse]
    · intro shards2
      simp [from_pretrained_local, hfalse]
  · intro htrue
    simp [from_pretrained_local, htrue]

/-- Witness for C7: a non-sharded checkpoint directory is rejected with the
exact assertion message even though a shard is available on disk, and a
sharded one is accepted. -/
theorem C7_requires_sharded_index_witness :
    from_pretrained_local
        ⟨false, [[("model.layers.0.input_layernorm.weight", [[1]])]]⟩ [] =
      .error "Only sharded PyTorch ckpt format supported at the moment" ∧
    from_pretrained_local ⟨true, []⟩ [] = .ok (runShards [] []) :=
  ⟨((C7_requires_sharded_index
      ⟨false, [[("model.layers.0.input_layernorm.weight", [[1]])]]⟩ []).1 rfl).1,
   (C7_requires_sharded_index ⟨true, []⟩ []).2 rfl⟩
